import Mathlib

/-!
Shallow embedding of the UnityEngineMetaGitDiffer core (identifier type,
identifier-indexed ledger, path tree with rename highlighting, classifier
routing) together with theorems checking the natural-language specification
against it.

Conventions of the embedding:
* Rust `&str` text is modelled as `List Char`; `u8` bytes as `Nat` values
  below 256.
* `PathBuf` is modelled as the list of its components (`List String`).
* Rust panics/unwraps (fatal aborts) are modelled by `Option`/`none`;
  `HashMap` is modelled as an association list, with `entry().or_default()`
  becoming lookup-with-default plus insert-or-replace.
-/

/-! ## Identifier (src/src/data/uuid.rs) -/

/-- The 16-byte Unity identifier (`struct Uuid { hash_bytes: [u8; 16] }`).
The fixed array is modelled as a list; parsing only ever constructs lists of
length 16. -/
structure Uuid where
  hash_bytes : List Nat
deriving DecidableEq, Repr

/-- Value of one hexadecimal digit character, the behaviour of
`u8::from_str_radix` on a single-character string (digits `0`-`9`,
`a`-`f`, `A`-`F`; anything else is an error). Character ranges are expressed
on the character's code point. -/
def hexDigitValue (c : Char) : Option Nat :=
  let n := c.toNat
  if 48 ≤ n ∧ n ≤ 57 then some (n - 48)
  else if 97 ≤ n ∧ n ≤ 102 then some (n - 97 + 10)
  else if 65 ≤ n ∧ n ≤ 70 then some (n - 65 + 10)
  else none

/-- Option-valued map over a list that stops at the first failure; mirrors
the `for` loop in `Uuid::from` which early-returns `None` on the first
conversion error. -/
def mapOption {α β : Type} (f : α → Option β) : List α → Option (List β)
  | [] => some []
  | x :: l =>
    match f x with
    | none => none
    | some b => (mapOption f l).map (fun bs => b :: bs)

/-- `Uuid::from(input: &str) -> Option<Self>` (src/src/data/uuid.rs lines
27-42): rejects input whose length is not 32, then for byte index
`index ∈ 0..16` parses the single character at `input_index = index << 1`
(the slice `input[input_index..(input_index + 1)]` is one character wide). -/
def Uuid.fromText (input : List Char) : Option Uuid :=
  if input.length = 32 then
    match mapOption (fun index => hexDigitValue (input.getD (2 * index) '0')) (List.range 16) with
    | some bytes => some ⟨bytes⟩
    | none => none
  else none

/-- Lower-case hex digit character for a value below 16. -/
def lowerHexChar (n : Nat) : Char :=
  if n < 10 then Char.ofNat (48 + n) else Char.ofNat (87 + n)

/-- The two characters `format!("{b:02x}")` produces for a byte. -/
def byteHexChars (b : Nat) : List Char :=
  [lowerHexChar (b / 16 % 16), lowerHexChar (b % 16)]

/-- `impl Display for Uuid` (src/src/data/uuid.rs lines 17-24): each byte is
rendered as two zero-padded lowercase hex digits, concatenated. -/
def Uuid.renderText (u : Uuid) : List Char :=
  (u.hash_bytes.map byteHexChars).flatten

/-- The all-zero identifier, used as concrete test data. -/
def uuidZero : Uuid := ⟨List.replicate 16 0⟩

/-- Identifier whose first byte is 1, used as concrete test data. -/
def uuidOne : Uuid := ⟨1 :: List.replicate 15 0⟩

/-- C1: the round-trip claim fails on the code. Rendering the identifier
whose first byte is 1 yields the 32 characters "01000...0"; parsing that
text reads only the characters at even indices (one character per byte), so
it returns the all-zero identifier, not the original. -/
theorem uuid_roundtrip_fails :
    Uuid.fromText (Uuid.renderText uuidOne) = some uuidZero ∧ uuidZero ≠ uuidOne := by
  decide

/-- C4: parsing succeeds on input the claim says must be rejected. The
32-character input consisting of sixteen "0z" pairs has no valid hex pair
(`z` is not a hex digit), yet `Uuid::from` accepts it and returns the
all-zero identifier, because only the first character of each pair is ever
examined. -/
theorem uuid_parse_accepts_bad_pairs :
    Uuid.fromText (List.replicate 16 ['0', 'z']).flatten = some uuidZero := by
  decide

/-- Congruence for `mapOption`: pointwise-equal functions on the list's
members give equal results. -/
theorem mapOption_congr {α β : Type} (f g : α → Option β) :
    ∀ l : List α, (∀ x ∈ l, f x = g x) → mapOption f l = mapOption g l := by
  intro l
  induction l with
  | nil => intro _; rfl
  | cons x l ih =>
    intro h
    simp only [mapOption, h x (by simp)]
    rw [ih (fun y hy => h y (by simp [hy]))]

/-- Every element of a successful `mapOption` result is the image of some
list member. -/
theorem mapOption_mem {α β : Type} (f : α → Option β) :
    ∀ (l : List α) (res : List β), mapOption f l = some res →
      ∀ b ∈ res, ∃ x ∈ l, f x = some b := by
  intro l
  induction l with
  | nil =>
    intro res h b hb
    simp [mapOption] at h
    subst h
    simp at hb
  | cons x l ih =>
    intro res h b hb
    simp only [mapOption] at h
    cases hfx : f x with
    | none => rw [hfx] at h; simp at h
    | some v =>
      rw [hfx] at h
      cases hrest : mapOption f l with
      | none => rw [hrest] at h; simp at h
      | some vs =>
        rw [hrest] at h
        simp at h
        subst h
        rcases List.mem_cons.mp hb with hb | hb
        · exact ⟨x, by simp, by rw [hfx, hb]⟩
        · rcases ih vs hrest b hb with ⟨y, hy, hfy⟩
          exact ⟨y, by simp [hy], hfy⟩

/-- A parsed hex digit is at most 15. -/
theorem hexDigitValue_le (c : Char) (v : Nat) (h : hexDigitValue c = some v) : v ≤ 15 := by
  simp only [hexDigitValue] at h
  split at h
  · simp at h; omega
  · split at h
    · simp at h; omega
    · split at h
      · simp at h; omega
      · simp at h

/-- C9: parsing reads only even-indexed characters; two 32-character inputs
that agree at all even indices parse to equal results, and every byte of a
successfully parsed identifier is at most 15 (one hex digit per byte). -/
theorem uuid_parse_even_indices_only (a b : List Char)
    (ha : a.length = 32) (hb : b.length = 32)
    (h : ∀ i, i < 32 → i % 2 = 0 → a.getD i '0' = b.getD i '0') :
    Uuid.fromText a = Uuid.fromText b ∧
      ∀ u, Uuid.fromText a = some u → ∀ byte ∈ u.hash_bytes, byte ≤ 15 := by
  constructor
  · unfold Uuid.fromText
    rw [ha, hb]
    have : mapOption (fun index => hexDigitValue (a.getD (2 * index) '0')) (List.range 16)
        = mapOption (fun index => hexDigitValue (b.getD (2 * index) '0')) (List.range 16) := by
      apply mapOption_congr
      intro i hi
      have hi16 : i < 16 := List.mem_range.mp hi
      rw [h (2 * i) (by omega) (by omega)]
    rw [this]
  · intro u hu byte hbyte
    unfold Uuid.fromText at hu
    rw [ha] at hu
    simp only [if_pos rfl] at hu
    cases hmap : mapOption (fun index => hexDigitValue (a.getD (2 * index) '0')) (List.range 16) with
    | none => rw [hmap] at hu; simp at hu
    | some bytes =>
      rw [hmap] at hu
      simp at hu
      rcases mapOption_mem _ _ _ hmap byte (by rw [← hu] at hbyte; exact hbyte) with ⟨i, _, hvi⟩
      exact hexDigitValue_le _ _ hvi

/-- Witness for C9 at concrete inputs: "00" repeated versus "0z" repeated
agree at even indices and parse to the same result. -/
theorem uuid_parse_even_indices_only_witness :
    Uuid.fromText (List.replicate 16 ['0', '0']).flatten
        = Uuid.fromText (List.replicate 16 ['0', 'z']).flatten ∧
      ∀ u, Uuid.fromText (List.replicate 16 ['0', '0']).flatten = some u →
        ∀ byte ∈ u.hash_bytes, byte ≤ 15 :=
  uuid_parse_even_indices_only _ _ (by decide) (by decide) (by decide)

/-! ## Paths and the metadata-suffix strip (`PathBuf::set_extension("")`) -/

/-- A filesystem path, modelled as its list of components. -/
abbrev UPath := List String

/-- Index of the last `.` at position ≥ 1 in a file name's characters
(Rust's `Path::extension` ignores a dot at position 0, so `.gitignore`
has no extension). -/
def lastDotIdx (cs : List Char) : Option Nat :=
  ((List.range cs.length).filter (fun i => 1 ≤ i ∧ cs.getD i ' ' = '.')).getLast?

/-- Remove the extension (final `.` plus what follows) from one file name,
the effect of `set_extension("")` on the path's final component. -/
def stripExtSeg (s : String) : String :=
  match lastDotIdx s.data with
  | some i => ⟨s.data.take i⟩
  | none => s

/-- `path.set_extension("")`: strips the extension of the last component;
an empty path is left unchanged (no file name, `set_extension` is a no-op
returning false). -/
def stripExt : UPath → UPath
  | [] => []
  | [s] => [stripExtSeg s]
  | s :: rest => s :: stripExt rest

/-! ## Ledger (src/src/data/uuid_storage.rs) -/

/-- `UuidStorageEntry { added: Option<PathBuf>, removed: Option<PathBuf> }`. -/
structure UuidStorageEntry where
  added : Option UPath
  removed : Option UPath
deriving DecidableEq, Repr

/-- The empty entry (`#[derive(Default)]`). -/
def UuidStorageEntry.default : UuidStorageEntry := ⟨none, none⟩

/-- `UuidStorage { lookup: HashMap<Uuid, UuidStorageEntry> }`, the hash map
modelled as an association list. -/
structure UuidStorage where
  lookup : List (Uuid × UuidStorageEntry)
deriving DecidableEq, Repr

/-- Lookup in the association list modelling `HashMap::get`. -/
def lookupEntry : List (Uuid × UuidStorageEntry) → Uuid → Option UuidStorageEntry
  | [], _ => none
  | (k, v) :: rest, u => if k = u then some v else lookupEntry rest u

/-- Insert-or-replace in the association list modelling `HashMap` write
access through `entry(uuid).or_default()`. -/
def insertEntry : List (Uuid × UuidStorageEntry) → Uuid → UuidStorageEntry → List (Uuid × UuidStorageEntry)
  | [], u, e => [(u, e)]
  | (k, v) :: rest, u, e => if k = u then (u, e) :: rest else (k, v) :: insertEntry rest u e

/-- The entry `get_or_create_node` works on: the stored entry, or a default
one if the identifier is not yet present. -/
def UuidStorage.entryFor (s : UuidStorage) (u : Uuid) : UuidStorageEntry :=
  (lookupEntry s.lookup u).getD UuidStorageEntry.default

/-- `UuidStorage::set` (src/src/data/uuid_storage.rs lines 31-39): strips
the path's extension, then either fills the empty side (returning `none`)
or keeps the existing path and returns it. Result is
(returned value, new field value). -/
def UuidStorage.set (option : Option UPath) (path : UPath) : Option UPath × Option UPath :=
  let path := stripExt path
  match option with
  | none => (none, some path)
  | some q => (some q, some q)

/-- `UuidStorage::added`: applies `set` to the added side of the entry for
`uuid` (created default if absent) and writes the entry back. -/
def UuidStorage.added (s : UuidStorage) (u : Uuid) (p : UPath) : Option UPath × UuidStorage :=
  let e := s.entryFor u
  let r := UuidStorage.set e.added p
  (r.1, ⟨insertEntry s.lookup u { e with added := r.2 }⟩)

/-- `UuidStorage::removed`: symmetric to `added` for the removed side. -/
def UuidStorage.removed (s : UuidStorage) (u : Uuid) (p : UPath) : Option UPath × UuidStorage :=
  let e := s.entryFor u
  let r := UuidStorage.set e.removed p
  (r.1, ⟨insertEntry s.lookup u { e with removed := r.2 }⟩)

/-- The empty ledger (`UuidStorage::default()`). -/
def UuidStorage.empty : UuidStorage := ⟨[]⟩

/-- One call in a sequence of ledger operations. -/
inductive LedgerCall where
  | addC (u : Uuid) (p : UPath)
  | remC (u : Uuid) (p : UPath)
deriving DecidableEq, Repr

/-- Execute one ledger call, keeping only the state. -/
def runCall (s : UuidStorage) : LedgerCall → UuidStorage
  | .addC u p => (s.added u p).2
  | .remC u p => (s.removed u p).2

/-- Execute a sequence of ledger calls from a starting state. -/
def runCalls (s : UuidStorage) (calls : List LedgerCall) : UuidStorage :=
  calls.foldl runCall s

/-- The path of the first `added` call for a given identifier in a call
sequence, if any. -/
def firstAddedCall (u : Uuid) : List LedgerCall → Option UPath
  | [] => none
  | .addC v p :: rest => if v = u then some p else firstAddedCall u rest
  | .remC _ _ :: rest => firstAddedCall u rest

/-- The path of the first `removed` call for a given identifier in a call
sequence, if any. -/
def firstRemovedCall (u : Uuid) : List LedgerCall → Option UPath
  | [] => none
  | .remC v p :: rest => if v = u then some p else firstRemovedCall u rest
  | .addC _ _ :: rest => firstRemovedCall u rest

theorem lookupEntry_insertEntry (l : List (Uuid × UuidStorageEntry)) (u v : Uuid) (e : UuidStorageEntry) :
    lookupEntry (insertEntry l u e) v = if u = v then some e else lookupEntry l v := by
  induction l with
  | nil => simp [insertEntry, lookupEntry]
  | cons kv rest ih =>
    obtain ⟨k, w⟩ := kv
    by_cases hku : k = u
    · subst hku
      simp only [insertEntry, if_pos rfl, lookupEntry]
      by_cases hkv : k = v <;> simp [hkv]
    · simp only [insertEntry, if_neg hku, lookupEntry, ih]
      by_cases hkv : k = v
      · subst hkv
        have huk : u ≠ k := fun h => hku h.symm
        simp [huk]
      · simp [hkv]

theorem insertEntry_same (l : List (Uuid × UuidStorageEntry)) (u : Uuid) (e : UuidStorageEntry)
    (h : lookupEntry l u = some e) : insertEntry l u e = l := by
  induction l with
  | nil => simp [lookupEntry] at h
  | cons kv rest ih =>
    obtain ⟨k, w⟩ := kv
    by_cases hku : k = u
    · subst hku
      simp [lookupEntry] at h
      simp [insertEntry, h]
    · simp only [lookupEntry, if_neg hku] at h
      simp [insertEntry, hku, ih h]

theorem entryFor_added_self (s : UuidStorage) (u : Uuid) (p : UPath) :
    ((s.added u p).2).entryFor u
      = { s.entryFor u with added := (UuidStorage.set (s.entryFor u).added p).2 } := by
  simp [UuidStorage.added, UuidStorage.entryFor, lookupEntry_insertEntry]

theorem entryFor_added_other (s : UuidStorage) (u v : Uuid) (p : UPath) (h : u ≠ v) :
    ((s.added u p).2).entryFor v = s.entryFor v := by
  simp [UuidStorage.added, UuidStorage.entryFor, lookupEntry_insertEntry, h]

theorem entryFor_removed_self (s : UuidStorage) (u : Uuid) (p : UPath) :
    ((s.removed u p).2).entryFor u
      = { s.entryFor u with removed := (UuidStorage.set (s.entryFor u).removed p).2 } := by
  simp [UuidStorage.removed, UuidStorage.entryFor, lookupEntry_insertEntry]

theorem entryFor_removed_other (s : UuidStorage) (u v : Uuid) (p : UPath) (h : u ≠ v) :
    ((s.removed u p).2).entryFor v = s.entryFor v := by
  simp [UuidStorage.removed, UuidStorage.entryFor, lookupEntry_insertEntry, h]

/-- If an entry's side is set, the identifier is present in the map with
that entry (a default-created entry has both sides unset). -/
theorem lookupEntry_of_added_set (s : UuidStorage) (u : Uuid) (q : UPath)
    (h : (s.entryFor u).added = some q) : lookupEntry s.lookup u = some (s.entryFor u) := by
  unfold UuidStorage.entryFor at *
  cases hl : lookupEntry s.lookup u with
  | none => rw [hl] at h; simp [UuidStorageEntry.default] at h
  | some e => simp [hl]

theorem lookupEntry_of_removed_set (s : UuidStorage) (u : Uuid) (q : UPath)
    (h : (s.entryFor u).removed = some q) : lookupEntry s.lookup u = some (s.entryFor u) := by
  unfold UuidStorage.entryFor at *
  cases hl : lookupEntry s.lookup u with
  | none => rw [hl] at h; simp [UuidStorageEntry.default] at h
  | some e => simp [hl]

/-- Core of the first-wins invariant, generalized over the starting state:
after any call sequence, each side of an identifier's entry holds the
previously stored value if there was one, and otherwise the (suffix
stripped) path of the first call for that identifier and side. -/
theorem runCalls_entry (u : Uuid) : ∀ (calls : List LedgerCall) (s : UuidStorage),
    ((runCalls s calls).entryFor u).added
        = ((s.entryFor u).added).or ((firstAddedCall u calls).map stripExt)
    ∧ ((runCalls s calls).entryFor u).removed
        = ((s.entryFor u).removed).or ((firstRemovedCall u calls).map stripExt) := by
  intro calls
  induction calls with
  | nil => intro s; simp [runCalls, firstAddedCall, firstRemovedCall]
  | cons c rest ih =>
    intro s
    have hrun : runCalls s (c :: rest) = runCalls (runCall s c) rest := by
      simp [runCalls, List.foldl_cons]
    rw [hrun]
    cases c with
    | addC v p =>
      simp only [runCall]
      by_cases hvu : v = u
      · subst hvu
        rcases ih ((s.added v p).2) with ⟨ihA, ihR⟩
        rw [ihA, ihR, entryFor_added_self]
        cases hA : (s.entryFor v).added with
        | none =>
          simp [UuidStorage.set, hA, firstAddedCall, firstRemovedCall]
        | some q =>
          simp [UuidStorage.set, hA, firstAddedCall, firstRemovedCall]
      · rcases ih ((s.added v p).2) with ⟨ihA, ihR⟩
        rw [ihA, ihR, entryFor_added_other s v u p hvu]
        have hvu' : ¬v = u := hvu
        simp [firstAddedCall, firstRemovedCall, hvu', runCall]
    | remC v p =>
      simp only [runCall]
      by_cases hvu : v = u
      · subst hvu
        rcases ih ((s.removed v p).2) with ⟨ihA, ihR⟩
        rw [ihA, ihR, entryFor_removed_self]
        cases hR : (s.entryFor v).removed with
        | none =>
          simp [UuidStorage.set, hR, firstAddedCall, firstRemovedCall]
        | some q =>
          simp [UuidStorage.set, hR, firstAddedCall, firstRemovedCall]
      · rcases ih ((s.removed v p).2) with ⟨ihA, ihR⟩
        rw [ihA, ihR, entryFor_removed_other s v u p hvu]
        have hvu' : ¬v = u := hvu
        simp [firstAddedCall, firstRemovedCall, hvu', runCall]

/-- C5: each identifier ends with at most one stored added-path and one
stored removed-path (the `Option`-valued entry sides), always the first
path presented for that identifier and side; a call on an unset side stores
the suffix-stripped path and returns none, and a call on an already-set
side returns the existing path and leaves the ledger unchanged. -/
theorem ledger_first_wins (u : Uuid) (calls : List LedgerCall) :
    ((runCalls UuidStorage.empty calls).entryFor u).added
        = (firstAddedCall u calls).map stripExt
    ∧ ((runCalls UuidStorage.empty calls).entryFor u).removed
        = (firstRemovedCall u calls).map stripExt
    ∧ (∀ (s : UuidStorage) (p : UPath), (s.entryFor u).added = none →
        (s.added u p).1 = none ∧ ((s.added u p).2.entryFor u).added = some (stripExt p))
    ∧ (∀ (s : UuidStorage) (p q : UPath), (s.entryFor u).added = some q →
        (s.added u p).1 = some q ∧ (s.added u p).2 = s)
    ∧ (∀ (s : UuidStorage) (p : UPath), (s.entryFor u).removed = none →
        (s.removed u p).1 = none ∧ ((s.removed u p).2.entryFor u).removed = some (stripExt p))
    ∧ (∀ (s : UuidStorage) (p q : UPath), (s.entryFor u).removed = some q →
        (s.removed u p).1 = some q ∧ (s.removed u p).2 = s) := by
  refine ⟨?_, ?_, ?_, ?_, ?_, ?_⟩
  · have h := (runCalls_entry u calls UuidStorage.empty).1
    simpa [UuidStorage.empty, UuidStorage.entryFor, lookupEntry, UuidStorageEntry.default] using h
  · have h := (runCalls_entry u calls UuidStorage.empty).2
    simpa [UuidStorage.empty, UuidStorage.entryFor, lookupEntry, UuidStorageEntry.default] using h
  · intro s p h
    refine ⟨by simp [UuidStorage.added, UuidStorage.set, h], ?_⟩
    rw [entryFor_added_self]
    simp [UuidStorage.set, h]
  · intro s p q h
    refine ⟨by simp [UuidStorage.added, UuidStorage.set, h], ?_⟩
    have hl := lookupEntry_of_added_set s u q h
    simp only [UuidStorage.added, UuidStorage.set, h]
    have : { s.entryFor u with added := some q } = s.entryFor u := by
      cases he : s.entryFor u
      simp only [he] at h
      simp [h]
    rw [this, insertEntry_same s.lookup u (s.entryFor u) hl]
  · intro s p h
    refine ⟨by simp [UuidStorage.removed, UuidStorage.set, h], ?_⟩
    rw [entryFor_removed_self]
    simp [UuidStorage.set, h]
  · intro s p q h
    refine ⟨by simp [UuidStorage.removed, UuidStorage.set, h], ?_⟩
    have hl := lookupEntry_of_removed_set s u q h
    simp only [UuidStorage.removed, UuidStorage.set, h]
    have : { s.entryFor u with removed := some q } = s.entryFor u := by
      cases he : s.entryFor u
      simp only [he] at h
      simp [h]
    rw [this, insertEntry_same s.lookup u (s.entryFor u) hl]

/-- Witness for C5: a concrete two-call sequence where the second added-path
for the same identifier is discarded, plus a concrete unset-side call. -/
theorem ledger_first_wins_witness :
    ((runCalls UuidStorage.empty
        [LedgerCall.addC uuidZero ["A.meta"], LedgerCall.addC uuidZero ["B.meta"]]).entryFor
          uuidZero).added
      = (firstAddedCall uuidZero
          [LedgerCall.addC uuidZero ["A.meta"], LedgerCall.addC uuidZero ["B.meta"]]).map stripExt
    ∧ (UuidStorage.empty.added uuidZero ["A.meta"]).1 = none
    ∧ ((UuidStorage.empty.added uuidZero ["A.meta"]).2.entryFor uuidZero).added
        = some (stripExt ["A.meta"]) :=
  ⟨(ledger_first_wins uuidZero
      [LedgerCall.addC uuidZero ["A.meta"], LedgerCall.addC uuidZero ["B.meta"]]).1,
   ((ledger_first_wins uuidZero []).2.2.1 UuidStorage.empty ["A.meta"] (by decide)).1,
   ((ledger_first_wins uuidZero []).2.2.1 UuidStorage.empty ["A.meta"] (by decide)).2⟩

/-! ## Path tree (src/src/data/path_tree_storage.rs) -/

/-- `TreeNode { uuid: Option<Uuid>, entries: HashMap<String, TreeNode> }`,
the child map modelled as an association list. -/
inductive TreeNode where
  | mk (uuid : Option Uuid) (entries : List (String × TreeNode))

/-- The node's optional identifier. -/
def TreeNode.uuid : TreeNode → Option Uuid
  | .mk u _ => u

/-- The node's child map. -/
def TreeNode.entries : TreeNode → List (String × TreeNode)
  | .mk _ es => es

/-- The default (empty) node, `TreeNode::default()`. -/
def TreeNode.default : TreeNode := .mk none []

/-- Lookup of a child node by segment name (`HashMap::get`). -/
def lookupNode : List (String × TreeNode) → String → Option TreeNode
  | [], _ => none
  | (k, v) :: rest, s => if k = s then some v else lookupNode rest s

/-- Insert-or-replace of a child node by segment name (`HashMap` write
access through `entry(..).or_default()`). -/
def insertNode : List (String × TreeNode) → String → TreeNode → List (String × TreeNode)
  | [], s, n => [(s, n)]
  | (k, v) :: rest, s, n => if k = s then (s, n) :: rest else (k, v) :: insertNode rest s n

/-- Resolve a non-empty segment path to the node it denotes, if present. -/
def findEntries : List (String × TreeNode) → List String → Option TreeNode
  | _, [] => none
  | es, [s] => lookupNode es s
  | es, s :: rest => (lookupNode es s).bind (fun n => findEntries n.entries rest)

/-- Walk/create nodes along the segment list inside an entry map: every
segment except the last resolves (or creates as default) an intermediate
node, and the final segment's node receives the identifier. Returns `none`
for the two fatal cases of `add_to_tree`: an empty path (the
`path_iterator.next().unwrap()` panic) and a final node that already
carries an identifier (the duplicate-UUID panic). -/
def addToEntries (u : Uuid) : List (String × TreeNode) → List String → Option (List (String × TreeNode))
  | _, [] => none
  | es, s :: rest =>
    let node := (lookupNode es s).getD TreeNode.default
    match rest with
    | [] =>
      match node.uuid with
      | some _ => none
      | none => some (insertNode es s (.mk (some u) node.entries))
    | _ :: _ =>
      (addToEntries u node.entries rest).map (fun es' => insertNode es s (.mk node.uuid es'))

/-- `PathTreeStorage { root_entries: HashMap<String, TreeNode> }`. -/
structure PathTreeStorage where
  root_entries : List (String × TreeNode)

/-- `PathTreeStorage::add_to_tree` (src/src/data/path_tree_storage.rs lines
20-43): strips the `.meta` extension from the path, then resolves/creates a
node per segment and sets the identifier on the final node. -/
def PathTreeStorage.add_to_tree (t : PathTreeStorage) (path : UPath) (u : Uuid) : Option PathTreeStorage :=
  (addToEntries u t.root_entries (stripExt path)).map PathTreeStorage.mk

/-- The empty tree (`PathTreeStorage::default()`). -/
def PathTreeStorage.empty : PathTreeStorage := ⟨[]⟩

theorem lookupNode_insertNode (es : List (String × TreeNode)) (s t : String) (n : TreeNode) :
    lookupNode (insertNode es s n) t = if s = t then some n else lookupNode es t := by
  induction es with
  | nil => simp [insertNode, lookupNode]
  | cons kv rest ih =>
    obtain ⟨k, w⟩ := kv
    by_cases hks : k = s
    · subst hks
      simp only [insertNode, if_pos rfl, lookupNode]
      by_cases hkt : k = t <;> simp [hkt]
    · simp only [insertNode, if_neg hks, lookupNode, ih]
      by_cases hkt : k = t
      · subst hkt
        have hst : s ≠ k := fun h => hks h.symm
        simp [hst]
      · simp [hkt]

/-- The duplicate-identifier failure condition of `addToEntries`: the walk
fails iff the node the full segment list denotes already exists and has an
identifier. -/
theorem addToEntries_none_iff (u : Uuid) :
    ∀ (segs : List String) (es : List (String × TreeNode)), segs ≠ [] →
      (addToEntries u es segs = none ↔
        ∃ n, findEntries es segs = some n ∧ n.uuid.isSome) := by
  intro segs
  induction segs with
  | nil => intro es h; exact absurd rfl h
  | cons s rest ih =>
    intro es _
    cases rest with
    | nil =>
      cases hl : lookupNode es s with
      | none =>
        simp [addToEntries, findEntries, hl, TreeNode.default, TreeNode.uuid]
      | some n =>
        cases hn : n.uuid with
        | none => simp [addToEntries, findEntries, hl, hn]
        | some w => simp [addToEntries, findEntries, hl, hn]
    | cons r rs =>
      have hne : (r :: rs : List String) ≠ [] := by simp
      cases hl : lookupNode es s with
      | none =>
        have := ih TreeNode.default.entries hne
        simp only [addToEntries, findEntries, hl, Option.getD_none, Option.none_bind]
        constructor
        · intro h
          rcases Option.map_eq_none'.mp h with h'
          rcases (this.mp h') with ⟨n, hfind, _⟩
          simp [TreeNode.default, TreeNode.entries] at hfind
          cases rs <;> simp [findEntries, lookupNode] at hfind
        · rintro ⟨n, hfind, _⟩
          simp at hfind
      | some n =>
        have := ih n.entries hne
        simp only [addToEntries, findEntries, hl, Option.getD_some, Option.some_bind]
        constructor
        · intro h
          rcases Option.map_eq_none'.mp h with h'
          exact this.mp h'
        · intro h
          exact Option.map_eq_none'.mpr (this.mpr h)

/-- Unfolding equation for `addToEntries` on a one-segment path. -/
theorem addToEntries_single (u : Uuid) (es : List (String × TreeNode)) (s : String) :
    addToEntries u es [s]
      = match ((lookupNode es s).getD TreeNode.default).uuid with
        | some _ => none
        | none => some (insertNode es s
            (.mk (some u) ((lookupNode es s).getD TreeNode.default).entries)) := rfl

/-- Unfolding equation for `addToEntries` on a path of two or more
segments. -/
theorem addToEntries_cons_cons (u : Uuid) (es : List (String × TreeNode)) (s r : String)
    (rs : List String) :
    addToEntries u es (s :: r :: rs)
      = (addToEntries u ((lookupNode es s).getD TreeNode.default).entries (r :: rs)).map
          (fun es' => insertNode es s
            (.mk ((lookupNode es s).getD TreeNode.default).uuid es')) := rfl

/-- Success facts of `addToEntries`: the final node of the walked path
carries the new identifier, and every proper non-empty leading portion of
the segment list resolves to a node whose identifier is unchanged (so a
freshly created intermediate node has none, the default). -/
theorem addToEntries_some_spec (u : Uuid) :
    ∀ (segs : List String) (es es' : List (String × TreeNode)),
      addToEntries u es segs = some es' →
      (∃ n, findEntries es' segs = some n ∧ n.uuid = some u)
      ∧ ∀ pre suf, pre ≠ [] → suf ≠ [] → pre ++ suf = segs →
          ∃ n', findEntries es' pre = some n'
            ∧ n'.uuid = ((findEntries es pre).getD TreeNode.default).uuid := by
  intro segs
  induction segs with
  | nil => intro es es' h; simp [addToEntries] at h
  | cons s rest ih =>
    intro es es' h
    cases rest with
    | nil =>
      rw [addToEntries_single] at h
      cases hu : ((lookupNode es s).getD TreeNode.default).uuid with
      | some w => rw [hu] at h; simp at h
      | none =>
        rw [hu] at h
        simp at h
        subst h
        constructor
        · refine ⟨TreeNode.mk (some u) ((lookupNode es s).getD TreeNode.default).entries, ?_, ?_⟩
          · simp [findEntries, lookupNode_insertNode]
          · simp [TreeNode.uuid]
        · intro pre suf hpre hsuf heq
          exfalso
          cases pre with
          | nil => exact hpre rfl
          | cons a as =>
            cases as with
            | nil => simp at heq; exact hsuf heq.2
            | cons b bs => simp at heq
    | cons r rs =>
      rw [addToEntries_cons_cons] at h
      cases hrec : addToEntries u ((lookupNode es s).getD TreeNode.default).entries (r :: rs) with
      | none => rw [hrec] at h; simp at h
      | some es₂ =>
        rw [hrec] at h
        simp at h
        subst h
        rcases ih _ _ hrec with ⟨⟨n, hfn, hun⟩, hpres⟩
        constructor
        · refine ⟨n, ?_, hun⟩
          simp [findEntries, lookupNode_insertNode, TreeNode.entries, hfn]
        · intro pre suf hpre hsuf heq
          cases pre with
          | nil => exact absurd rfl hpre
          | cons a as =>
            have has : a = s := by
              have := congrArg (fun l => l.head?) heq
              simpa using this
            subst has
            cases as with
            | nil =>
              refine ⟨TreeNode.mk ((lookupNode es a).getD TreeNode.default).uuid es₂,
                by simp [findEntries, lookupNode_insertNode], ?_⟩
              simp only [TreeNode.uuid, findEntries]
            | cons b bs =>
              have heq' : (b :: bs) ++ suf = r :: rs := by
                simpa using heq
              rcases hpres (b :: bs) suf (by simp) hsuf heq' with ⟨n', hfn', hun'⟩
              refine ⟨n', ?_, ?_⟩
              · simp [findEntries, lookupNode_insertNode, TreeNode.entries, hfn']
              · rw [hun']
                simp only [findEntries]
                cases hl : lookupNode es a with
                | none =>
                  simp only [hl, Option.getD_none, Option.none_bind]
                  simp [TreeNode.default, TreeNode.entries]
                  cases bs <;> simp [findEntries, lookupNode]
                | some n0 => simp [hl]

/-- C6: tree insertion strips the metadata suffix, walks/creates the nodes
of every segment (intermediate nodes keep their identifier, so fresh ones
have the default none), sets the identifier on the final segment's node,
and fails (fatally, modelled as none) iff that final node already carries
an identifier. -/
theorem add_to_tree_spec (t : PathTreeStorage) (path : UPath) (u : Uuid)
    (hne : stripExt path ≠ []) :
    (t.add_to_tree path u = none ↔
       ∃ n, findEntries t.root_entries (stripExt path) = some n ∧ n.uuid.isSome)
    ∧ ∀ t', t.add_to_tree path u = some t' →
        (∃ n, findEntries t'.root_entries (stripExt path) = some n ∧ n.uuid = some u)
        ∧ ∀ pre suf, pre ≠ [] → suf ≠ [] → pre ++ suf = stripExt path →
            ∃ n', findEntries t'.root_entries pre = some n'
              ∧ n'.uuid = ((findEntries t.root_entries pre).getD TreeNode.default).uuid := by
  constructor
  · unfold PathTreeStorage.add_to_tree
    rw [Option.map_eq_none']
    exact addToEntries_none_iff u _ t.root_entries hne
  · intro t' ht'
    unfold PathTreeStorage.add_to_tree at ht'
    cases hrec : addToEntries u t.root_entries (stripExt path) with
    | none => rw [hrec] at ht'; simp at ht'
    | some es' =>
      rw [hrec] at ht'
      simp at ht'
      subst ht'
      exact addToEntries_some_spec u _ _ _ hrec

/-- Witness for C6 at a concrete insertion into the empty tree. -/
theorem add_to_tree_spec_witness :
    (PathTreeStorage.empty.add_to_tree ["Assets", "Foo.prefab.meta"] uuidZero = none ↔
       ∃ n, findEntries PathTreeStorage.empty.root_entries
           (stripExt ["Assets", "Foo.prefab.meta"]) = some n ∧ n.uuid.isSome)
    ∧ ∀ t', PathTreeStorage.empty.add_to_tree ["Assets", "Foo.prefab.meta"] uuidZero = some t' →
        (∃ n, findEntries t'.root_entries (stripExt ["Assets", "Foo.prefab.meta"]) = some n
            ∧ n.uuid = some uuidZero)
        ∧ ∀ pre suf, pre ≠ [] → suf ≠ [] → pre ++ suf = stripExt ["Assets", "Foo.prefab.meta"] →
            ∃ n', findEntries t'.root_entries pre = some n'
              ∧ n'.uuid = ((findEntries PathTreeStorage.empty.root_entries pre).getD
                  TreeNode.default).uuid :=
  add_to_tree_spec PathTreeStorage.empty ["Assets", "Foo.prefab.meta"] uuidZero (by decide)

/-! ## Rename highlight (src/src/data/path_tree_storage.rs lines 102-162) -/

/-- `count_same_parts(max_iteration, iterator_a, iterator_b)`: length of the
initial run of positionally equal elements, examining at most
`max_iteration` positions; each position is read with `.next().unwrap()`,
so exhausting an iterator before the bound (without an earlier mismatch) is
a panic, modelled as none. -/
def count_same_parts {α : Type} [DecidableEq α] : Nat → List α → List α → Option Nat
  | 0, _, _ => some 0
  | _ + 1, [], _ => none
  | _ + 1, _ :: _, [] => none
  | n + 1, a :: as, b :: bs =>
    if a = b then (count_same_parts n as bs).map (· + 1) else some 0

/-- `start_index` of `highlight_path_change`: forward scan bounded by the
shorter path's segment count. -/
def highlightStart (mainPath referencePath : List String) : Option Nat :=
  count_same_parts (min mainPath.length referencePath.length) mainPath referencePath

/-- `end_index` of `highlight_path_change`: backward scan (`.rev()`), also
bounded by the shorter path's segment count. -/
def highlightEnd (mainPath referencePath : List String) : Option Nat :=
  count_same_parts (min mainPath.length referencePath.length)
    mainPath.reverse referencePath.reverse

/-- `center_parts = main_path.iter().count() as isize - start_index as isize
- end_index as isize` (src/src/data/path_tree_storage.rs line 126). -/
def highlightCenter (mainPath referencePath : List String) : Option Int :=
  match highlightStart mainPath referencePath, highlightEnd mainPath referencePath with
  | some s, some e => some ((mainPath.length : Int) - s - e)
  | _, _ => none

/-- `output.pop().unwrap()`: remove the last character, panicking (none) on
an empty string. -/
def strPop (s : String) : Option String :=
  if s.isEmpty then none else some (s.dropRight 1)

/-- `PathTreeStorage::highlight_path_change`. Color codes produced by the
`ansi!` macro are modelled as literal marker text; what matters for the
embedding is that each segment is emitted with a leading marker and a
trailing slash, exactly as pushed by the source's three loops, so the
trailing character popped at the end (and in the zero-center special case)
is the `/`. The two panics (the negative-center `unreachable!` and the final
pop on an empty output) are modelled as none. -/
def highlight_path_change (mainPath referencePath : List String) : Option String :=
  match highlightStart mainPath referencePath, highlightEnd mainPath referencePath with
  | some startIndex, some endIndex =>
    let centerParts : Int := (mainPath.length : Int) - startIndex - endIndex
    if centerParts < 0 then none
    else
      let centerCount := centerParts.toNat
      let afterCenter :=
        String.join ((mainPath.take startIndex).map (fun seg => "«gr»" ++ seg ++ "«w»/"))
          ++ String.join (((mainPath.drop startIndex).take centerCount).map
              (fun seg => "«lb»" ++ seg ++ "«w»/"))
      match
        (if centerParts = 0 then
          if afterCenter.isEmpty then some afterCenter
          else (strPop afterCenter).map (· ++ "«lb»/")
        else some afterCenter) with
      | none => none
      | some afterZero =>
        (strPop (afterZero
            ++ String.join (((mainPath.drop (startIndex + centerCount)).take endIndex).map
                (fun seg => "«gr»" ++ seg ++ "«w»/")))).map (· ++ "«»")
  | _, _ => none

/-- C2: the end-of-path scan is not capped at `k - start_match`; it is
bounded only by the shorter path's length `k`. On the pair (["x"], ["x"])
the prefix scan already consumes the whole budget (start = 1 = k), yet the
suffix scan still reports 1, exceeding `k - start_match = 0` and counting
position 0 twice. -/
theorem highlight_end_cap_violated :
    highlightStart ["x"] ["x"] = some 1 ∧ highlightEnd ["x"] ["x"] = some 1 ∧
      ¬(1 ≤ min (["x"] : List String).length (["x"] : List String).length - 1) := by
  decide

/-- C3: the negative-center internal-consistency branch is reachable.
Comparing the one-segment path ["x"] to itself yields start = end = 1 and
center = 1 - 1 - 1 = -1, so `highlight_path_change` hits the `unreachable!`
branch (modelled as none) instead of yielding center = 0. -/
theorem highlight_center_negative_on_self :
    highlightCenter ["x"] ["x"] = some (-1) ∧ highlight_path_change ["x"] ["x"] = none := by
  decide

/-! ## Renderer (src/src/data/path_tree_storage.rs lines 45-100) -/

/-- One stack entry of `debug_print`'s traversal:
`(path_element, node, prefix_main, prefix_sub)`. -/
structure StackItem where
  pathElement : String
  node : TreeNode
  pfxMain : String
  pfxSub : String

/-- Stable insertion of a keyed pair into a key-sorted list; the building
block of the model of `list.sort_by_key(|(path, _)| *path)`. -/
def insertByKey (p : String × TreeNode) : List (String × TreeNode) → List (String × TreeNode)
  | [] => [p]
  | q :: rest => if p.1 ≤ q.1 then p :: q :: rest else q :: insertByKey p rest

/-- Model of `sort_by_key` on the child map: a stable sort by segment
name. -/
def sortByKey : List (String × TreeNode) → List (String × TreeNode)
  | [] => []
  | p :: rest => insertByKey p (sortByKey rest)

/-- `add_flipped`: the sorted children are pushed onto the stack in reverse
order so they pop in ascending order; the last sorted child (the one whose
`index == map.len() - 1`) gets the closing connector and blank continuation,
all others the branching connector and vertical continuation. Modelled
directly as the list of items in pop (ascending) order. -/
def flippedItems (pfx : String) : List (String × TreeNode) → List StackItem
  | [] => []
  | [(k, n)] => [⟨k, n, pfx ++ "└─", pfx ++ "  "⟩]
  | (k, n) :: rest => ⟨k, n, pfx ++ "├─", pfx ++ "│ "⟩ :: flippedItems pfx rest

/-- The identifier's display text (Display interpolation of the Uuid). -/
def uuidText (u : Uuid) : String := String.mk u.renderText

/-- The single-quote character wrapping highlighted paths. -/
def quoteStr : String := String.mk [Char.ofNat 39]

/-- The per-node suffix computed by `debug_print` (src/src/data/
path_tree_storage.rs lines 68-95): nothing for identifier-less nodes; for a
node with an identifier the ledger entry is fetched with `get(..).unwrap()`
(none if absent), then, depending on the tree's role, the entry's reference
side selects either the highlighted move annotation (unwrapping the primary
side — none if unset) or the plain ADDED/REMOVED annotation. -/
def nodeSuffix (storage : UuidStorage) (isAdding : Bool) (n : TreeNode) : Option String :=
  match n.uuid with
  | none => some ""
  | some uuid =>
    match lookupEntry storage.lookup uuid with
    | none => none
    | some entry =>
      if isAdding then
        match entry.removed with
        | some primaryPath =>
          match entry.added with
          | none => none
          | some secondaryPath =>
            (highlight_path_change primaryPath secondaryPath).map
              (fun h => " <= " ++ quoteStr ++ h ++ quoteStr)
        | none => some (" «lg»ADDED«» " ++ uuidText uuid)
      else
        match entry.added with
        | some primaryPath =>
          match entry.removed with
          | none => none
          | some secondaryPath =>
            (highlight_path_change primaryPath secondaryPath).map
              (fun h => " => " ++ quoteStr ++ h ++ quoteStr)
        | none => some (" «lr»REMOVED«» " ++ uuidText uuid)

mutual

/-- Weight of a node: one plus the weight of all descendants; the
termination measure of the traversal loop. -/
def nodeWeight : TreeNode → Nat
  | .mk _ es => 1 + entriesWeight es

/-- Combined weight of a child map. -/
def entriesWeight : List (String × TreeNode) → Nat
  | [] => 0
  | (_, n) :: rest => nodeWeight n + entriesWeight rest

end

/-- Combined node weight of a stack. -/
def stackWeight (stack : List StackItem) : Nat :=
  (stack.map (fun i => nodeWeight i.node)).sum

theorem entriesWeight_eq_sum (es : List (String × TreeNode)) :
    entriesWeight es = (es.map (fun p => nodeWeight p.2)).sum := by
  induction es with
  | nil => rfl
  | cons p rest ih =>
    obtain ⟨k, n⟩ := p
    simp [entriesWeight, ih]

theorem entriesWeight_lt_node (u : Option Uuid) (es : List (String × TreeNode)) :
    entriesWeight es < nodeWeight (TreeNode.mk u es) := by
  simp [nodeWeight]

theorem insertByKey_perm (p : String × TreeNode) (l : List (String × TreeNode)) :
    (insertByKey p l).Perm (p :: l) := by
  induction l with
  | nil => simp [insertByKey]
  | cons q rest ih =>
    simp only [insertByKey]
    by_cases h : p.1 ≤ q.1
    · simp [h]
    · rw [if_neg h]
      exact (ih.cons q).trans (List.Perm.swap p q rest)

theorem sortByKey_perm (l : List (String × TreeNode)) : (sortByKey l).Perm l := by
  induction l with
  | nil => simp [sortByKey]
  | cons p rest ih =>
    exact (insertByKey_perm p (sortByKey rest)).trans (ih.cons p)

theorem entriesWeight_sortByKey (es : List (String × TreeNode)) :
    entriesWeight (sortByKey es) = entriesWeight es := by
  rw [entriesWeight_eq_sum, entriesWeight_eq_sum]
  exact ((sortByKey_perm es).map (fun (p : String × TreeNode) => nodeWeight p.2)).sum_eq

theorem stackWeight_flippedItems (pfx : String) (l : List (String × TreeNode)) :
    stackWeight (flippedItems pfx l) = entriesWeight l := by
  induction l with
  | nil => simp [flippedItems, stackWeight, entriesWeight]
  | cons p rest ih =>
    obtain ⟨k, n⟩ := p
    cases rest with
    | nil => simp [flippedItems, stackWeight, entriesWeight]
    | cons q rs =>
      simp only [flippedItems, stackWeight, List.map_cons, List.sum_cons, entriesWeight] at *
      omega

theorem stackWeight_append (a b : List StackItem) :
    stackWeight (a ++ b) = stackWeight a + stackWeight b := by
  simp [stackWeight]

theorem renderLoop_measure (item : StackItem) (rest : List StackItem) (pfx : String) :
    stackWeight (flippedItems pfx (sortByKey item.node.entries) ++ rest)
      < stackWeight (item :: rest) := by
  rw [stackWeight_append, stackWeight_flippedItems, entriesWeight_sortByKey]
  have h : entriesWeight item.node.entries < nodeWeight item.node := by
    cases hn : item.node with
    | mk u es => simpa [TreeNode.entries] using entriesWeight_lt_node u es
  have h2 : stackWeight (item :: rest) = nodeWeight item.node + stackWeight rest := by
    simp [stackWeight]
  omega

/-- The `while let Some(..) = stack.pop()` loop of `debug_print`, modelled
with the stack's top at the list head: print the popped item's line (its
suffix can fail, see `nodeSuffix`), then push the sorted children so they
are processed next, before the remainder of the stack. -/
def renderLoop (storage : UuidStorage) (isAdding : Bool) : List StackItem → Option (List String)
  | [] => some []
  | item :: rest =>
    match nodeSuffix storage isAdding item.node with
    | none => none
    | some suffix =>
      match renderLoop storage isAdding
          (flippedItems item.pfxSub (sortByKey item.node.entries) ++ rest) with
      | none => none
      | some lines =>
        some ((item.pfxMain ++ "«w»" ++ item.pathElement ++ "«»:" ++ suffix) :: lines)
termination_by stack => stackWeight stack
decreasing_by exact renderLoop_measure item rest item.pfxSub

/-- `PathTreeStorage::debug_print`, as the list of printed lines (none when
one of the unwraps/panics fires): seed the stack with the sorted root
entries under the empty prefix and run the loop. -/
def PathTreeStorage.debugPrintLines (t : PathTreeStorage) (storage : UuidStorage)
    (isAdding : Bool) : Option (List String) :=
  renderLoop storage isAdding (flippedItems "" (sortByKey t.root_entries))

/-! ## What rendering requires of the ledger -/

mutual

/-- All identifiers attached to a node or its descendants. -/
def nodeUuids : TreeNode → List Uuid
  | .mk u es => u.toList ++ entriesUuids es

/-- All identifiers attached anywhere below a child map. -/
def entriesUuids : List (String × TreeNode) → List Uuid
  | [] => []
  | (_, n) :: rest => nodeUuids n ++ entriesUuids rest

end

/-- The consistency `debug_print` needs of one identifier: a ledger entry
exists, and whenever the reference side (removed for the addition tree,
added for the removal tree) is set, the primary side is set too. -/
def uuidOk (storage : UuidStorage) (isAdding : Bool) (u : Uuid) : Prop :=
  ∃ e, lookupEntry storage.lookup u = some e ∧
    (if isAdding then (e.removed.isSome → e.added.isSome)
     else (e.added.isSome → e.removed.isSome))

theorem mem_entriesUuids (u : Uuid) :
    ∀ es : List (String × TreeNode),
      u ∈ entriesUuids es ↔ ∃ k n, (k, n) ∈ es ∧ u ∈ nodeUuids n := by
  intro es
  induction es with
  | nil => simp [entriesUuids]
  | cons p rest ih =>
    obtain ⟨k, n⟩ := p
    simp only [entriesUuids, List.mem_append, ih]
    constructor
    · rintro (h | ⟨k', n', hmem, hu⟩)
      · exact ⟨k, n, by simp, h⟩
      · exact ⟨k', n', by simp [hmem], hu⟩
    · rintro ⟨k', n', hmem, hu⟩
      rcases List.mem_cons.mp hmem with heq | hmem'
      · left
        obtain ⟨h1, h2⟩ := Prod.mk.injEq .. ▸ heq
        exact h2 ▸ hu
      · right
        exact ⟨k', n', hmem', hu⟩

theorem flippedItems_covers (pfx : String) :
    ∀ (l : List (String × TreeNode)) (k : String) (n : TreeNode),
      (k, n) ∈ l → ∃ i ∈ flippedItems pfx l, i.node = n := by
  intro l
  induction l with
  | nil => intro k n h; simp at h
  | cons p rest ih =>
    intro k n h
    obtain ⟨k0, n0⟩ := p
    rcases List.mem_cons.mp h with heq | hmem
    · obtain ⟨h1, h2⟩ := Prod.mk.injEq .. ▸ heq
      cases rest with
      | nil =>
        exact ⟨⟨k0, n0, pfx ++ "└─", pfx ++ "  "⟩, by simp [flippedItems], by simp [h2]⟩
      | cons q rs =>
        exact ⟨⟨k0, n0, pfx ++ "├─", pfx ++ "│ "⟩, by simp [flippedItems], by simp [h2]⟩
    · cases rest with
      | nil => simp at hmem
      | cons q rs =>
        rcases ih k n hmem with ⟨i, hi, hin⟩
        exact ⟨i, by simp [flippedItems]; right; exact hi, hin⟩

/-- A node's weight is positive. -/
theorem nodeWeight_pos (n : TreeNode) : 1 ≤ nodeWeight n := by
  cases n with
  | mk u es => simp [nodeWeight]

/-- Unfolding equation of `renderLoop` for a non-empty stack. -/
theorem renderLoop_cons (storage : UuidStorage) (isAdding : Bool) (item : StackItem)
    (rest : List StackItem) :
    renderLoop storage isAdding (item :: rest)
      = match nodeSuffix storage isAdding item.node with
        | none => none
        | some suffix =>
          match renderLoop storage isAdding
              (flippedItems item.pfxSub (sortByKey item.node.entries) ++ rest) with
          | none => none
          | some lines =>
            some ((item.pfxMain ++ "«w»" ++ item.pathElement ++ "«»:" ++ suffix) :: lines) := by
  rw [renderLoop]

/-- If the traversal loop succeeds from some stack, every identifier in
every stacked node satisfies the ledger-consistency condition. -/
theorem renderLoop_ok (storage : UuidStorage) (isAdding : Bool) :
    ∀ (fuel : Nat) (stack : List StackItem), stackWeight stack ≤ fuel →
      ∀ lines, renderLoop storage isAdding stack = some lines →
        ∀ i ∈ stack, ∀ u ∈ nodeUuids i.node, uuidOk storage isAdding u := by
  intro fuel
  induction fuel with
  | zero =>
    intro stack hw lines _ i hi u _
    exfalso
    have h1 : 1 ≤ nodeWeight i.node := nodeWeight_pos i.node
    have h2 : nodeWeight i.node ≤ stackWeight stack := by
      have := List.le_sum_of_mem (List.mem_map_of_mem (fun j => nodeWeight j.node) hi)
      simpa [stackWeight] using this
    omega
  | succ f ih =>
    intro stack hw lines hr i hi u hu
    cases stack with
    | nil => simp at hi
    | cons item rest =>
      rw [renderLoop_cons] at hr
      cases hsuf : nodeSuffix storage isAdding item.node with
      | none => rw [hsuf] at hr; simp at hr
      | some suffix =>
        rw [hsuf] at hr
        cases hrec : renderLoop storage isAdding
            (flippedItems item.pfxSub (sortByKey item.node.entries) ++ rest) with
        | none => rw [hrec] at hr; simp at hr
        | some lines' =>
          have hw' : stackWeight (flippedItems item.pfxSub (sortByKey item.node.entries) ++ rest) ≤ f := by
            have := renderLoop_measure item rest item.pfxSub
            omega
          have IH := ih _ hw' lines' hrec
          rcases List.mem_cons.mp hi with heq | htail
          · subst heq
            cases hnode : i.node with
            | mk nu es =>
              rw [hnode] at hu
              simp only [nodeUuids, List.mem_append] at hu
              rcases hu with hu | hu
              · -- the node's own identifier: read off nodeSuffix's success
                cases nu with
                | none => simp at hu
                | some v =>
                  simp at hu
                  subst hu
                  rw [hnode] at hsuf
                  simp only [nodeSuffix, TreeNode.uuid] at hsuf
                  cases hl : lookupEntry storage.lookup u with
                  | none => rw [hl] at hsuf; simp at hsuf
                  | some e =>
                    rw [hl] at hsuf
                    refine ⟨e, hl, ?_⟩
                    cases isAdding with
                    | true =>
                      simp only [if_pos rfl, Bool.true_eq] at *
                      cases he : e.removed with
                      | none => simp [he]
                      | some pp =>
                        rw [he] at hsuf
                        cases ha : e.added with
                        | none => rw [ha] at hsuf; simp at hsuf
                        | some sp => simp [he, ha]
                    | false =>
                      simp only [Bool.false_eq, if_neg Bool.false_ne_true] at *
                      cases he : e.added with
                      | none => simp [he]
                      | some pp =>
                        rw [he] at hsuf
                        cases ha : e.removed with
                        | none => rw [ha] at hsuf; simp at hsuf
                        | some sp => simp [he, ha]
              · -- identifier of a descendant: it sits on the pushed stack
                rcases (mem_entriesUuids u es).mp hu with ⟨k, n, hkn, hun⟩
                have hkn' : (k, n) ∈ sortByKey i.node.entries := by
                  rw [hnode]
                  exact ((sortByKey_perm es).mem_iff).mpr hkn
                rcases flippedItems_covers i.pfxSub _ k n hkn' with ⟨j, hj, hjn⟩
                exact IH j (List.mem_append_left _ hj) u (by rw [hjn]; exact hun)
          · exact IH i (List.mem_append_right _ htail) u hu

/-- C10: rendering a tree succeeds only when every identifier attached to a
tree node has a ledger entry whose primary side (added for the addition
tree, removed for the removal tree) is set whenever the reference side is
set; equivalently, an absent entry or an unset primary side with a present
reference side makes rendering fail. -/
theorem debug_print_requires_ledger (t : PathTreeStorage) (storage : UuidStorage)
    (isAdding : Bool) (lines : List String)
    (h : t.debugPrintLines storage isAdding = some lines) :
    ∀ u ∈ entriesUuids t.root_entries, uuidOk storage isAdding u := by
  intro u hu
  rcases (mem_entriesUuids u t.root_entries).mp hu with ⟨k, n, hkn, hun⟩
  have hkn' : (k, n) ∈ sortByKey t.root_entries := ((sortByKey_perm _).mem_iff).mpr hkn
  rcases flippedItems_covers "" _ k n hkn' with ⟨i, hi, hin⟩
  exact renderLoop_ok storage isAdding (stackWeight (flippedItems "" (sortByKey t.root_entries)))
    _ le_rfl lines h i hi u (by rw [hin]; exact hun)

/-- Witness for C10: a concrete one-node removal tree whose render succeeds,
so its identifier's ledger entry satisfies the consistency condition. -/
theorem debug_print_requires_ledger_witness :
    uuidOk ⟨[(uuidZero, ⟨none, none⟩)]⟩ false uuidZero :=
  debug_print_requires_ledger (PathTreeStorage.mk [("a", .mk (some uuidZero) [])])
    ⟨[(uuidZero, ⟨none, none⟩)]⟩ false
    ["└─«w»a«»:" ++ (" «lr»REMOVED«» " ++ uuidText uuidZero)]
    (by simp [PathTreeStorage.debugPrintLines, renderLoop, sortByKey, insertByKey, flippedItems,
      nodeSuffix, lookupEntry, TreeNode.uuid, TreeNode.entries])
    uuidZero (by simp [entriesUuids, nodeUuids])

/-! ## Order independence of the renderer -/

/-- Level-wise equality of two trees up to child-map iteration order: the
same optional identifier, the same multiset of child segment names, and
equivalent child nodes under each common name. Two in-memory hash-map trees
holding the same mapping are related exactly this way, whatever iteration
order each map exhibits. -/
inductive NodeEquiv : TreeNode → TreeNode → Prop where
  | mk : ∀ (u : Option Uuid) (es1 es2 : List (String × TreeNode)),
      (es1.map Prod.fst).Perm (es2.map Prod.fst) →
      (∀ k n1 n2, (k, n1) ∈ es1 → (k, n2) ∈ es2 → NodeEquiv n1 n2) →
      NodeEquiv (.mk u es1) (.mk u es2)

/-- The root-level form of `NodeEquiv` for whole trees. -/
def EntriesEquiv (es1 es2 : List (String × TreeNode)) : Prop :=
  (es1.map Prod.fst).Perm (es2.map Prod.fst) ∧
    ∀ k n1 n2, (k, n1) ∈ es1 → (k, n2) ∈ es2 → NodeEquiv n1 n2

theorem insertByKey_pairwise (p : String × TreeNode) (l : List (String × TreeNode))
    (h : l.Pairwise (fun a b => a.1 ≤ b.1)) :
    (insertByKey p l).Pairwise (fun a b => a.1 ≤ b.1) := by
  induction l with
  | nil => simp [insertByKey]
  | cons q rest ih =>
    rw [List.pairwise_cons] at h
    simp only [insertByKey]
    by_cases hle : p.1 ≤ q.1
    · rw [if_pos hle]
      refine List.Pairwise.cons ?_ (List.Pairwise.cons h.1 h.2)
      intro b hb
      rcases List.mem_cons.mp hb with hbq | hbr
      · exact hbq ▸ hle
      · exact le_trans hle (h.1 b hbr)
    · rw [if_neg hle]
      refine List.Pairwise.cons ?_ (ih h.2)
      intro b hb
      have hb' : b ∈ p :: rest := ((insertByKey_perm p rest).mem_iff).mp hb
      rcases List.mem_cons.mp hb' with hbp | hbr
      · exact hbp ▸ le_of_not_le hle
      · exact h.1 b hbr

theorem sortByKey_pairwise (l : List (String × TreeNode)) :
    (sortByKey l).Pairwise (fun a b => a.1 ≤ b.1) := by
  induction l with
  | nil => simp [sortByKey]
  | cons p rest ih => exact insertByKey_pairwise p (sortByKey rest) ih

/-- The sorted child list has its segment names in ascending order. -/
theorem sortByKey_keys_sorted (es : List (String × TreeNode)) :
    ((sortByKey es).map Prod.fst).Sorted (· ≤ ·) := by
  rw [List.Sorted, List.pairwise_map]
  exact sortByKey_pairwise es

theorem sortByKey_keys_eq (es1 es2 : List (String × TreeNode))
    (hperm : (es1.map Prod.fst).Perm (es2.map Prod.fst)) :
    (sortByKey es1).map Prod.fst = (sortByKey es2).map Prod.fst := by
  have h1 : ((sortByKey es1).map Prod.fst).Perm ((sortByKey es2).map Prod.fst) :=
    ((sortByKey_perm es1).map Prod.fst).trans
      (hperm.trans ((sortByKey_perm es2).map Prod.fst).symm)
  exact List.eq_of_perm_of_sorted h1 (sortByKey_keys_sorted es1) (sortByKey_keys_sorted es2)

/-- Two keyed lists with identical key sequences, all of whose same-key
pairs are related, are related position by position. -/
theorem forall2_of_keys_eq {R : TreeNode → TreeNode → Prop} :
    ∀ (l1 l2 : List (String × TreeNode)),
      l1.map Prod.fst = l2.map Prod.fst →
      (∀ k n1 n2, (k, n1) ∈ l1 → (k, n2) ∈ l2 → R n1 n2) →
      List.Forall₂ (fun p q => p.1 = q.1 ∧ R p.2 q.2) l1 l2 := by
  intro l1
  induction l1 with
  | nil =>
    intro l2 h _
    cases l2 with
    | nil => exact List.Forall₂.nil
    | cons q rest2 => simp at h
  | cons p rest ih =>
    intro l2 h hr
    cases l2 with
    | nil => simp at h
    | cons q rest2 =>
      obtain ⟨k1, n1⟩ := p
      obtain ⟨k2, n2⟩ := q
      simp only [List.map_cons, List.cons.injEq] at h
      refine List.Forall₂.cons ⟨h.1, ?_⟩ ?_
      · exact hr k1 n1 n2 (by simp) (by rw [h.1]; simp)
      · exact ih rest2 h.2 (fun k m1 m2 hm1 hm2 => hr k m1 m2 (by simp [hm1]) (by simp [hm2]))

/-- The sorted child lists of two map-equal child maps are related position
by position. -/
theorem sortByKey_pairing (es1 es2 : List (String × TreeNode)) (heq : EntriesEquiv es1 es2) :
    List.Forall₂ (fun p q => p.1 = q.1 ∧ NodeEquiv p.2 q.2) (sortByKey es1) (sortByKey es2) := by
  refine forall2_of_keys_eq (sortByKey es1) (sortByKey es2) (sortByKey_keys_eq es1 es2 heq.1) ?_
  intro k n1 n2 h1 h2
  exact heq.2 k n1 n2 (((sortByKey_perm es1).mem_iff).mp h1) (((sortByKey_perm es2).mem_iff).mp h2)

/-- Corresponding stack items: same segment name and both line prefixes,
and equivalent nodes. -/
def ItemEquiv (i1 i2 : StackItem) : Prop :=
  i1.pathElement = i2.pathElement ∧ i1.pfxMain = i2.pfxMain ∧ i1.pfxSub = i2.pfxSub ∧
    NodeEquiv i1.node i2.node

theorem flippedItems_equiv (pfx : String) :
    ∀ (l1 l2 : List (String × TreeNode)),
      List.Forall₂ (fun p q => p.1 = q.1 ∧ NodeEquiv p.2 q.2) l1 l2 →
      List.Forall₂ ItemEquiv (flippedItems pfx l1) (flippedItems pfx l2) := by
  intro l1
  induction l1 with
  | nil =>
    intro l2 h
    cases h
    exact List.Forall₂.nil
  | cons p rest ih =>
    intro l2 h
    cases h with
    | cons hpq hrest =>
      rename_i q rest2
      cases rest with
      | nil =>
        cases hrest
        obtain ⟨k1, n1⟩ := p
        obtain ⟨k2, n2⟩ := q
        exact List.Forall₂.cons ⟨hpq.1, rfl, rfl, hpq.2⟩ List.Forall₂.nil
      | cons r rs =>
        cases hrest with
        | cons hr2 hrs2 =>
          rename_i r2 rs2
          obtain ⟨k1, n1⟩ := p
          obtain ⟨k2, n2⟩ := q
          exact List.Forall₂.cons ⟨hpq.1, rfl, rfl, hpq.2⟩
            (ih (r2 :: rs2) (List.Forall₂.cons hr2 hrs2))

/-- The per-node suffix depends only on the node's identifier, which
equivalent nodes share. -/
theorem nodeSuffix_congr (storage : UuidStorage) (isAdding : Bool) (n1 n2 : TreeNode)
    (h : NodeEquiv n1 n2) :
    nodeSuffix storage isAdding n1 = nodeSuffix storage isAdding n2 := by
  cases h
  rfl

/-- Equivalent nodes share their identifier and have map-equal child
maps. -/
theorem nodeEquiv_parts (n1 n2 : TreeNode) (h : NodeEquiv n1 n2) :
    n1.uuid = n2.uuid ∧ EntriesEquiv n1.entries n2.entries := by
  cases h with
  | mk u es1 es2 hperm hrel => exact ⟨rfl, hperm, hrel⟩

/-- The traversal loop yields identical output on item-wise equivalent
stacks. -/
theorem renderLoop_congr (storage : UuidStorage) (isAdding : Bool) :
    ∀ (fuel : Nat) (stack1 stack2 : List StackItem), stackWeight stack1 ≤ fuel →
      List.Forall₂ ItemEquiv stack1 stack2 →
      renderLoop storage isAdding stack1 = renderLoop storage isAdding stack2 := by
  intro fuel
  induction fuel with
  | zero =>
    intro stack1 stack2 hw h
    cases h with
    | nil => rfl
    | cons hitem hrest =>
      exfalso
      rename_i i1 i2 r1 r2
      have h1 : 1 ≤ nodeWeight i1.node := nodeWeight_pos i1.node
      have h2 : stackWeight (i1 :: r1) = nodeWeight i1.node + stackWeight r1 := by
        simp [stackWeight]
      omega
  | succ f ih =>
    intro stack1 stack2 hw h
    cases h with
    | nil => rfl
    | cons hitem hrest =>
      rename_i i1 i2 r1 r2
      obtain ⟨hpe, hpm, hps, hne⟩ := hitem
      rw [renderLoop_cons, renderLoop_cons]
      have hent : EntriesEquiv i1.node.entries i2.node.entries :=
        (nodeEquiv_parts i1.node i2.node hne).2
      have hchild : List.Forall₂ ItemEquiv
          (flippedItems i1.pfxSub (sortByKey i1.node.entries) ++ r1)
          (flippedItems i2.pfxSub (sortByKey i2.node.entries) ++ r2) := by
        refine List.rel_append ?_ hrest
        rw [← hps]
        exact flippedItems_equiv i1.pfxSub _ _ (sortByKey_pairing _ _ hent)
      have hwc : stackWeight (flippedItems i1.pfxSub (sortByKey i1.node.entries) ++ r1) ≤ f := by
        have := renderLoop_measure i1 r1 i1.pfxSub
        omega
      have hrec := ih _ _ hwc hchild
      rw [← nodeSuffix_congr storage isAdding i1.node i2.node hne, ← hrec, ← hpe, ← hpm]

/-- C8: at every level the traversal visits children in ascending segment
name order, and two trees that hold the same mapping (level-wise, in any
iteration order) render to identical output against the same ledger. -/
theorem debug_print_order_independent (t1 t2 : PathTreeStorage) (storage : UuidStorage)
    (isAdding : Bool) (heq : EntriesEquiv t1.root_entries t2.root_entries) :
    t1.debugPrintLines storage isAdding = t2.debugPrintLines storage isAdding
    ∧ ∀ es : List (String × TreeNode), ((sortByKey es).map Prod.fst).Sorted (· ≤ ·) := by
  constructor
  · unfold PathTreeStorage.debugPrintLines
    refine renderLoop_congr storage isAdding _ _ _ le_rfl ?_
    exact flippedItems_equiv "" _ _ (sortByKey_pairing _ _ heq)
  · exact sortByKey_keys_sorted

/-- A childless node is equivalent to itself. -/
theorem nodeEquiv_leaf (u : Option Uuid) : NodeEquiv (.mk u []) (.mk u []) := by
  refine NodeEquiv.mk u [] [] (List.Perm.refl _) ?_
  intro k n1 n2 h _
  simp at h

/-- Witness for C8: two concrete two-child trees holding the same mapping in
opposite list orders render identically. -/
theorem debug_print_order_independent_witness :
    (PathTreeStorage.mk [("b", TreeNode.mk none []), ("a", TreeNode.mk (some uuidZero) [])]).debugPrintLines
        ⟨[(uuidZero, ⟨none, none⟩)]⟩ true
      = (PathTreeStorage.mk [("a", TreeNode.mk (some uuidZero) []), ("b", TreeNode.mk none [])]).debugPrintLines
        ⟨[(uuidZero, ⟨none, none⟩)]⟩ true :=
  (debug_print_order_independent
    (PathTreeStorage.mk [("b", TreeNode.mk none []), ("a", TreeNode.mk (some uuidZero) [])])
    (PathTreeStorage.mk [("a", TreeNode.mk (some uuidZero) []), ("b", TreeNode.mk none [])])
    ⟨[(uuidZero, ⟨none, none⟩)]⟩ true
    (by
      constructor
      · decide
      · intro k n1 n2 h1 h2
        simp only [PathTreeStorage.mk] at h1 h2
        rcases List.mem_cons.mp h1 with h1 | h1
        · obtain ⟨h1k, h1n⟩ := Prod.mk.injEq .. ▸ h1
          rcases List.mem_cons.mp h2 with h2 | h2
          · obtain ⟨h2k, h2n⟩ := Prod.mk.injEq .. ▸ h2
            exact absurd (h1k ▸ h2k) (by decide)
          · simp at h2
            obtain ⟨h2k, h2n⟩ := h2
            subst h1n
            subst h2n
            exact nodeEquiv_leaf none
        · simp at h1
          obtain ⟨h1k, h1n⟩ := h1
          rcases List.mem_cons.mp h2 with h2 | h2
          · obtain ⟨h2k, h2n⟩ := Prod.mk.injEq .. ▸ h2
            subst h1n
            subst h2n
            exact nodeEquiv_leaf (some uuidZero)
          · simp at h2
            obtain ⟨h2k, h2n⟩ := h2
            exact absurd (h1k ▸ h2k.symm) (by decide))).1

/-! ## Classifier (src/src/main.rs, spec section 4.5) -/

/-- The state the classifier routes facts into: the ledger and the two
trees. -/
structure ClassifierState where
  storage : UuidStorage
  addedTree : PathTreeStorage
  removedTree : PathTreeStorage

/-- Modelled from the spec: the classifier's routing of identifier facts
into the ledger and the addition/removal trees (spec section 4.5) is not
part of src (src/main.rs predates the tree storage and routes into the
ledger only); the content-modified branch's identity check and its
removed-then-added call order follow src/main.rs lines 150-158. On a
modified record the identifiers of the old and new content are compared:
when equal nothing happens; when different the old identifier is registered
removed and the new one added, each inserted into its tree only when the
ledger reports no conflict. -/
def classifyModified (st : ClassifierState) (path : UPath) (uuidFrom uuidTo : Uuid) :
    Option ClassifierState :=
  if uuidFrom = uuidTo then some st
  else
    let rRem := st.storage.removed uuidFrom path
    match (match rRem.1 with
           | none => st.removedTree.add_to_tree path uuidFrom
           | some _ => some st.removedTree) with
    | none => none
    | some rTree =>
      let rAdd := rRem.2.added uuidTo path
      match (match rAdd.1 with
             | none => st.addedTree.add_to_tree path uuidTo
             | some _ => some st.addedTree) with
      | none => none
      | some aTree => some ⟨rAdd.2, aTree, rTree⟩

/-- C7: a content-modified record whose old and new content resolve to the
same identifier changes nothing: the classifier returns the state with the
ledger and both trees untouched. -/
theorem classify_modified_same_uuid_no_change (st : ClassifierState) (path : UPath) (u : Uuid) :
    classifyModified st path u u = some st := by
  simp [classifyModified]
